/- Verification of the papercast pipeline core against its sources:
   the TTS text segmenter (src/services/tts.py), the audio-duration
   estimator, the retry wrapper (src/utils/retry.py), the summarizer
   fallback logic (src/services/summarizer.py), the processing-log
   records (src/models/processing_log.py) and the pipeline run
   (src/main.py), embedded shallowly.  Python strings are modelled as
   `List Char` (sequences of Unicode code points); `len(s.encode("utf-8"))`
   is `utf8Len`. -/
import Mathlib

namespace Papercast

/-- Whitespace test used by Python `str.strip()` (the ASCII whitespace
    characters; exotic Unicode spaces are not needed by any input below). -/
def pyIsSpace (c : Char) : Bool :=
  c == ' ' || c == '\t' || c == '\n' || c == '\r' || c == Char.ofNat 11 || c == Char.ofNat 12

/-- UTF-8 encoded byte length of a string, `len(s.encode("utf-8"))`. -/
def utf8Len (s : List Char) : Nat :=
  (s.map Char.utf8Size).sum

/-- Remove trailing whitespace (the right half of Python `str.strip()`). -/
def dropTrail (s : List Char) : List Char :=
  (s.reverse.dropWhile pyIsSpace).reverse

/-- Python `str.strip()`: remove leading and trailing whitespace. -/
def pyStrip (s : List Char) : List Char :=
  dropTrail (s.dropWhile pyIsSpace)

/-- Python `str.replace(old, new)` for a one-character pattern `old`. -/
def pyReplaceChar (old : Char) (new : List Char) : List Char → List Char
  | [] => []
  | c :: rest => (if c == old then new else [c]) ++ pyReplaceChar old new rest

/-- The sentence separator `". "` used by `_split_text_by_bytes`. -/
def dotSpace : List Char := ['.', ' ']

/-- Python `text.split(". ")`, specialised to the two-character separator:
    split on each leftmost non-overlapping occurrence. -/
def splitDotSpace : List Char → List (List Char)
  | [] => [[]]
  | [c] => [[c]]
  | c1 :: c2 :: rest =>
    if c1 == '.' && c2 == ' ' then
      [] :: splitDotSpace rest
    else
      match splitDotSpace (c2 :: rest) with
      | [] => [[c1]]
      | p :: ps => (c1 :: p) :: ps

/-- The character loop of `TTSConverter._split_by_characters`:
    greedily fill `current` with characters while the byte budget holds. -/
def splitByCharsAux (maxBytes : Nat) : List Char → List Char → List (List Char) → List (List Char)
  | [], current, chunks =>
    if current.isEmpty then chunks else chunks ++ [current]
  | c :: rest, current, chunks =>
    if utf8Len (current ++ [c]) ≤ maxBytes then
      splitByCharsAux maxBytes rest (current ++ [c]) chunks
    else if current.isEmpty then
      splitByCharsAux maxBytes rest [c] chunks
    else
      splitByCharsAux maxBytes rest [c] (chunks ++ [current])

/-- `TTSConverter._split_by_characters(text, max_bytes)`. -/
def split_by_characters (text : List Char) (maxBytes : Nat) : List (List Char) :=
  splitByCharsAux maxBytes text [] []

/-- The sentence loop of `TTSConverter._split_text_by_bytes`: for each
    stripped non-empty sentence, re-append `". "`, accumulate while the
    byte budget holds, emit the stripped buffer when it would overflow,
    and character-split a single oversized sentence. -/
def splitSentencesAux (maxBytes : Nat) : List (List Char) → List Char → List (List Char) → List (List Char)
  | [], current, chunks =>
    if (pyStrip current).isEmpty then chunks else chunks ++ [pyStrip current]
  | s :: rest, current, chunks =>
    if (pyStrip s).isEmpty then
      splitSentencesAux maxBytes rest current chunks
    else if utf8Len (current ++ (pyStrip s ++ dotSpace)) ≤ maxBytes then
      splitSentencesAux maxBytes rest (current ++ (pyStrip s ++ dotSpace)) chunks
    else if maxBytes < utf8Len (pyStrip s ++ dotSpace) then
      splitSentencesAux maxBytes rest
        ((split_by_characters (pyStrip s ++ dotSpace) maxBytes).getLastD [])
        ((if current.isEmpty then chunks else chunks ++ [pyStrip current]) ++
          (split_by_characters (pyStrip s ++ dotSpace) maxBytes).dropLast)
    else
      splitSentencesAux maxBytes rest (pyStrip s ++ dotSpace)
        (if current.isEmpty then chunks else chunks ++ [pyStrip current])

/-- `TTSConverter._split_text_by_bytes(text, max_bytes)`: replace `'。'`
    by `". "`, split on `". "`, then run the sentence loop. -/
def split_text_by_bytes (text : List Char) (maxBytes : Nat) : List (List Char) :=
  splitSentencesAux maxBytes (splitDotSpace (pyReplaceChar '。' dotSpace text)) [] []

/-- The byte-length dispatch of `TTSConverter.convert_to_speech`
    (tts.py lines 62-70): a text within the byte budget is synthesised
    whole, a longer text is segmented by `_split_text_by_bytes`. -/
def ttsChunks (text : List Char) (maxBytes : Nat) : List (List Char) :=
  if maxBytes < utf8Len text then split_text_by_bytes text maxBytes else [text]

/-- `TTSConverter.get_audio_duration`: a successful metadata parse yields
    the parsed whole-second length plus one; a parse failure falls back to
    `file_size // (16 * 1024)` clamped below to `1`.  The parse outcome is
    passed explicitly (`some len` models `int(MP3(path).info.length)`). -/
def get_audio_duration (parsed : Option Nat) (file_size : Nat) : Nat :=
  match parsed with
  | some len => len + 1
  | none => max (file_size / (16 * 1024)) 1

/-- A stage record (src/models/processing_log.py); timestamps are modelled
    as integer seconds, metadata is omitted (no claim mentions it). -/
structure ProcessingLog where
  podcast_id : String
  step : String
  status : String
  started_at : Int
  completed_at : Option Int
  duration : Option Int
  error_message : Option String
  retry_count : Nat

/-- Stage-record creation as done by the pipeline (src/main.py):
    `ProcessingLog(podcast_id=…, step=…, status="started", started_at=now)`. -/
def mkLog (podcast_id step : String) (now : Int) : ProcessingLog :=
  ⟨podcast_id, step, "started", now, none, none, none, 0⟩

/-- `ProcessingLog.mark_completed`, with `datetime.now` passed explicitly;
    the duration is the whole-second delta from `started_at`. -/
def mark_completed (log : ProcessingLog) (now : Int) : ProcessingLog :=
  { log with
    status := "completed"
    completed_at := some now
    duration := some (now - log.started_at) }

/-- `ProcessingLog.mark_failed`: terminal failure status with the error
    message truncated to 1000 characters. -/
def mark_failed (log : ProcessingLog) (error : String) (now : Int) : ProcessingLog :=
  { log with
    status := "failed"
    completed_at := some now
    error_message := some (error.take 1000)
    duration := some (now - log.started_at) }

/-- One invocation of an operation wrapped by the retry decorators
    (src/utils/retry.py): it returns a value, raises an exception from the
    configured transient set, or raises one outside that set. -/
inductive CallResult (α : Type) where
  | ok (value : α)
  | transient
  | fatal
deriving DecidableEq

/-- What the wrapped call as a whole does: return a value, re-raise the
    last transient exception, propagate a non-configured exception, or
    raise the final RuntimeError when the loop never ran. -/
inductive RunOutcome (α : Type) where
  | ok (value : α)
  | raised_transient
  | raised_fatal
  | raised_no_attempt
deriving DecidableEq

/-- The `while attempt < max_attempts` loop of `retry_with_logging`:
    `remaining` counts the attempts still allowed, `attempt` the attempts
    already made, `hasLast` whether a transient exception was recorded.
    The second component counts how often the operation was invoked. -/
def retryAux {α : Type} (op : Nat → CallResult α) : Nat → Nat → Bool → RunOutcome α × Nat
  | 0, _, hasLast =>
    ((if hasLast then RunOutcome.raised_transient else RunOutcome.raised_no_attempt), 0)
  | remaining + 1, attempt, _ =>
    match op (attempt + 1) with
    | CallResult.ok v => (RunOutcome.ok v, 1)
    | CallResult.fatal => (RunOutcome.raised_fatal, 1)
    | CallResult.transient =>
      ((retryAux op remaining (attempt + 1) true).1,
        (retryAux op remaining (attempt + 1) true).2 + 1)

/-- `retry_with_logging(operation_name, max_attempts, exceptions)` applied
    to an operation, returned as (outcome, number of invocations).  The
    operation is indexed by the 1-based attempt number. -/
def retry_with_logging {α : Type} (max_attempts : Nat) (op : Nat → CallResult α) :
    RunOutcome α × Nat :=
  retryAux op max_attempts 0 false

theorem retryAux_succeeds {α : Type} (op : Nat → CallResult α) (v : α) :
    ∀ (k remaining attempt : Nat) (hasLast : Bool),
      (∀ i, attempt < i → i ≤ attempt + k → op i = CallResult.transient) →
      op (attempt + k + 1) = CallResult.ok v →
      k < remaining →
      retryAux op remaining attempt hasLast = (RunOutcome.ok v, k + 1) := by
  intro k
  induction k with
  | zero =>
    intro remaining attempt hasLast _ hs hr
    match remaining, hr with
    | r + 1, _ =>
      simp only [retryAux]
      rw [show attempt + 0 + 1 = attempt + 1 by omega] at hs
      rw [hs]
  | succ k ih =>
    intro remaining attempt hasLast hk hs hr
    match remaining, hr with
    | r + 1, hr =>
      simp only [retryAux]
      rw [hk (attempt + 1) (by omega) (by omega)]
      have := ih r (attempt + 1)
        true
        (fun i h1 h2 => hk i (by omega) (by omega))
        (by rw [show attempt + 1 + k + 1 = attempt + (k + 1) + 1 by omega]; exact hs)
        (by omega)
      rw [this]

theorem retryAux_fatal {α : Type} (op : Nat → CallResult α)
    (remaining attempt : Nat) (hasLast : Bool)
    (h : op (attempt + 1) = CallResult.fatal) (hr : 0 < remaining) :
    retryAux op remaining attempt hasLast = (RunOutcome.raised_fatal, 1) := by
  match remaining, hr with
  | r + 1, _ =>
    simp only [retryAux]
    rw [h]

/-- An operation that raises a transient error on attempts 1 and 2 and
    returns 42 on attempt 3 (Scenario B of the spec). -/
def retryDemoOp (i : Nat) : CallResult Nat :=
  if i ≤ 2 then CallResult.transient else CallResult.ok 42

/-- An operation that always raises an exception outside the configured set. -/
def retryFatalOp (_ : Nat) : CallResult Nat :=
  CallResult.fatal

/-- Claim C3 counterexample: segmenting "A. B. C." with byte budget 4 does
    not yield ["A.", "B.", "C."]; the last chunk is "C.." because the final
    piece of the split keeps its own period and gains the separator period. -/
theorem claim_c3_counterexample :
    split_text_by_bytes "A. B. C.".data 4 ≠ ["A.".data, "B.".data, "C.".data] := by
  decide

/-- Claim C3 (amended): segmenting "A. B. C." with byte budget 4 yields
    exactly ["A.", "B.", "C.."], and every chunk is at most 4 UTF-8 bytes. -/
theorem claim_c3 :
    split_text_by_bytes "A. B. C.".data 4 = ["A.".data, "B.".data, "C..".data] ∧
    ∀ chunk ∈ split_text_by_bytes "A. B. C.".data 4, utf8Len chunk ≤ 4 := by
  decide

/-- Claim C5: a wrapped operation that raises a configured (transient)
    exception k times and then succeeds, with max_attempts ≥ k+1, returns
    the success value and is invoked exactly k+1 times; an operation that
    always raises a non-configured exception is invoked exactly once, the
    exception propagating immediately (at least one attempt allowed). -/
theorem claim_c5 {α : Type} (n k : Nat) (op opf : Nat → CallResult α) (v : α)
    (hk : ∀ i, 1 ≤ i → i ≤ k → op i = CallResult.transient)
    (hs : op (k + 1) = CallResult.ok v)
    (hn : k + 1 ≤ n)
    (hf : ∀ i, opf i = CallResult.fatal)
    (hn1 : 1 ≤ n) :
    retry_with_logging n op = (RunOutcome.ok v, k + 1) ∧
    retry_with_logging n opf = (RunOutcome.raised_fatal, 1) := by
  constructor
  · exact retryAux_succeeds op v k n 0 false
      (fun i h1 h2 => hk i (by omega) (by omega))
      (by rw [show 0 + k + 1 = k + 1 by omega]; exact hs)
      (by omega)
  · exact retryAux_fatal opf n 0 false (hf 1) (by omega)

/-- Claim C5 witness: with max_attempts = 3, two transient failures then 42
    gives (42, invoked 3 times); an always-fatal operation gives one
    invocation with the exception propagated. -/
theorem claim_c5_witness :
    retry_with_logging 3 retryDemoOp = (RunOutcome.ok 42, 3) ∧
    retry_with_logging 3 retryFatalOp = (RunOutcome.raised_fatal, 1) := by
  have h := claim_c5 3 2 retryDemoOp retryFatalOp 42
    (fun i h1 h2 => by unfold retryDemoOp; rw [if_pos h2])
    (by decide) (by decide) (fun i => rfl) (by decide)
  exact h

/-- Claim C7 counterexample: when metadata parsing fails on a file of
    16385 bytes, the code returns 1 second (floor division by 16384),
    whereas rounding up to the next whole second would give 2. -/
theorem claim_c7_counterexample :
    get_audio_duration none 16385 = 1 ∧ (16385 + 16384 - 1) / 16384 = 2 := by
  decide

/-- Claim C7 (amended): get_audio_duration never fails on a parse error:
    on parse failure it returns `file_size // (16*1024)` rounded DOWN
    (never up), clamped below to 1; the result is at least 1 for every
    input, on the success path as well. -/
theorem claim_c7 (parsed : Option Nat) (file_size : Nat) :
    1 ≤ get_audio_duration parsed file_size ∧
    get_audio_duration none file_size = max (file_size / (16 * 1024)) 1 ∧
    16 * 1024 * (file_size / (16 * 1024)) ≤ file_size := by
  refine ⟨?_, rfl, by simpa [Nat.mul_comm] using Nat.div_mul_le_self file_size (16 * 1024)⟩
  cases parsed with
  | none => simp [get_audio_duration]
  | some len => simp [get_audio_duration]

/-- Claim C8 counterexample: a record marked completed at t=5 is not
    immutable: marking it failed at t=9 changes its status, completed_at,
    duration and error_message. -/
theorem claim_c8_counterexample :
    (mark_completed (mkLog "2025-01-01" "collect" 0) 5).status = "completed" ∧
    (mark_failed (mark_completed (mkLog "2025-01-01" "collect" 0) 5) "boom" 9).status = "failed" ∧
    (mark_failed (mark_completed (mkLog "2025-01-01" "collect" 0) 5) "boom" 9).completed_at ≠
      (mark_completed (mkLog "2025-01-01" "collect" 0) 5).completed_at := by
  refine ⟨rfl, rfl, ?_⟩
  decide

/-- Claim C8 (amended): stage records are created by the pipeline in status
    "started", and each marking operation sets a terminal status together
    with completed_at, the whole-second duration and (for failures) the
    error message truncated to 1000 characters; but the transition is not
    once-only: the marking methods are unconditional, so a record that
    already reached a terminal status can be re-marked and overwritten. -/
theorem claim_c8 (pid stage : String) (t0 t1 t2 : Int) (log : ProcessingLog) (e : String) :
    (mkLog pid stage t0).status = "started" ∧
    (mark_completed log t1).status = "completed" ∧
    (mark_completed log t1).completed_at = some t1 ∧
    (mark_completed log t1).duration = some (t1 - log.started_at) ∧
    (mark_failed log e t2).status = "failed" ∧
    (mark_failed log e t2).completed_at = some t2 ∧
    (mark_failed log e t2).error_message = some (e.take 1000) ∧
    (mark_failed (mark_completed log t1) e t2).status = "failed" ∧
    (mark_completed (mark_failed log e t2) t1).status = "completed" :=
  ⟨rfl, rfl, rfl, rfl, rfl, rfl, rfl, rfl, rfl⟩

/-- Claim C9: a text whose UTF-8 encoding fits the byte budget
    short-circuits: convert_to_speech synthesises it whole, i.e. the chunk
    sequence is exactly [T]. -/
theorem claim_c9 (text : List Char) (maxBytes : Nat) (h : utf8Len text ≤ maxBytes) :
    ttsChunks text maxBytes = [text] := by
  unfold ttsChunks
  rw [if_neg (by omega)]

/-- Claim C9 witness at "Hi" with the code's 4500-byte budget. -/
theorem claim_c9_witness :
    utf8Len "Hi".data ≤ 4500 ∧ ttsChunks "Hi".data 4500 = ["Hi".data] :=
  ⟨by decide, claim_c9 "Hi".data 4500 (by decide)⟩

/-- A paper (src/models/paper.py); only the fields the summarizer and the
    pipeline read are modelled (url and the optional metadata fields are
    never consulted by the verified components). -/
structure Paper where
  id : String
  title : String
  authors : List String
  abstract : String
  summary : Option String

/-- One candidate of a generative-model response, as inspected by
    `Summarizer.generate_summary`: whether it carries a finish_reason,
    its value, whether `candidate.content.parts` is non-empty, and the
    text of the first part. -/
structure Candidate where
  has_finish_reason : Bool
  finish_reason : Int
  has_content_parts : Bool
  part_text : String

/-- A generative-model response: its candidate list and the result of the
    `response.text` accessor, which itself may raise (modelled as error). -/
structure GenResponse where
  candidates : List Candidate
  text : Except Unit String

/-- The behaviour of one `model.generate_content` call: raise, or return
    a response object. -/
inductive CallOutcome where
  | raise
  | ok (resp : GenResponse)

/-- `paper.abstract[:800] if len(paper.abstract) > 800 else paper.abstract`. -/
def abstractPreview (paper : Paper) : String :=
  if paper.abstract.length > 800 then paper.abstract.take 800 else paper.abstract

/-- The Korean authors line of the fallback summary: first five authors,
    then `" 외 n명"` when more exist. -/
def koAuthors (paper : Paper) : String :=
  if paper.authors.length > 5 then
    String.intercalate ", " (paper.authors.take 5) ++ " 외 " ++
      toString (paper.authors.length - 5) ++ "명"
  else
    String.intercalate ", " (paper.authors.take 5)

/-- The English authors line of the fallback summary. -/
def enAuthors (paper : Paper) : String :=
  if paper.authors.length > 5 then
    String.intercalate ", " (paper.authors.take 5) ++ " et al."
  else
    String.intercalate ", " (paper.authors.take 5)

/-- Everything the Korean fallback summary appends after the opening
    `"논문 제목: '" + paper.title`; grouping the successive `+=` of the
    source this way is sound by associativity of concatenation. -/
def fallbackTailKo (paper : Paper) : String :=
  "'\n\n" ++ "저자: " ++ koAuthors paper ++ "\n\n" ++
  "연구 내용:\n" ++ abstractPreview paper ++ "\n\n" ++
  "이 논문은 " ++ paper.title ++ "에 관한 최신 연구 결과를 담고 있습니다. " ++
  "총 " ++ toString paper.authors.length ++ "명의 연구진이 참여하였으며, " ++
  "해당 분야의 중요한 발견과 기여를 포함하고 있습니다."

/-- Everything the English fallback summary appends after the opening
    `"Title: '" + paper.title`. -/
def fallbackTailEn (paper : Paper) : String :=
  "'\n\n" ++ "Authors: " ++ enAuthors paper ++ "\n\n" ++
  "Research Content:\n" ++ abstractPreview paper ++ "\n\n" ++
  "This paper presents recent research findings on " ++ paper.title ++ ". " ++
  "A total of " ++ toString paper.authors.length ++ " researchers participated, " ++
  "and it includes important discoveries and contributions to the field."

/-- `Summarizer._create_fallback_summary(paper, language)`. -/
def create_fallback_summary (paper : Paper) (language : String) : String :=
  if language = "ko" then
    "논문 제목: '" ++ paper.title ++ fallbackTailKo paper
  else
    "Title: '" ++ paper.title ++ fallbackTailEn paper

/-- `Summarizer._validate_summary`: reject empty output and output whose
    character count is below 500 or above 5000. -/
def validate_summary (summary : String) : Bool :=
  if summary = "" then false
  else if summary.length < 500 || summary.length > 5000 then false
  else true

/-- The try-block of `Summarizer.generate_summary` applied to a returned
    response: raise on an empty candidate list; on a non-normal finish
    reason use the partial text when parts exist, else the fallback;
    on normal finish use `response.text` (which may itself raise); the
    dead `summary is None` re-check of the source cannot fire in any of
    these branches and reduces to the identity.  Output failing
    `_validate_summary` is replaced by the fallback. -/
def generate_summary_try (paper : Paper) (language : String) (resp : GenResponse) :
    Except Unit String :=
  match resp.candidates with
  | [] => Except.error ()
  | candidate :: _ =>
    match (if candidate.has_finish_reason then
             if candidate.finish_reason ≠ 1 then
               (if candidate.has_content_parts then Except.ok candidate.part_text
                else Except.ok (create_fallback_summary paper language))
             else resp.text
           else resp.text) with
    | Except.error e => Except.error e
    | Except.ok summary =>
      Except.ok (if validate_summary summary then summary
                 else create_fallback_summary paper language)

/-- `Summarizer.generate_summary`: the try-block wrapped in the catch-all
    `except Exception` handler that returns the fallback summary.  An
    `Except.error` overall result would mean an exception escaped the
    method; the handler makes that impossible. -/
def generate_summary (paper : Paper) (language : String) (call : CallOutcome) :
    Except Unit String :=
  match call with
  | CallOutcome.raise => Except.ok (create_fallback_summary paper language)
  | CallOutcome.ok resp =>
    match generate_summary_try paper language resp with
    | Except.error _ => Except.ok (create_fallback_summary paper language)
    | Except.ok s => Except.ok s

/-- How the retry decorator (configured with `exceptions=(Exception,)`)
    sees one invocation of the decorated method: any raise is transient. -/
def toCallResult (r : Except Unit String) : CallResult String :=
  match r with
  | Except.ok s => CallResult.ok s
  | Except.error _ => CallResult.transient

/-- `pat` occurs contiguously inside `s`. -/
def occursIn (pat s : List Char) : Prop :=
  ∃ u v, s = u ++ pat ++ v

theorem strDataAppend (s t : String) : (s ++ t).data = s.data ++ t.data := by
  cases s
  cases t
  rfl

/-- The behaviour of one remote stage call as seen by the pipeline:
    return a value, or raise. -/
inductive StageOutcome (α : Type) where
  | ok (value : α)
  | raises

/-- An episode (src/models/podcast.py); the fields the pipeline populates. -/
structure Podcast where
  id : String
  title : String
  description : String
  papers : List Paper
  audio_file_path : String
  audio_duration : Nat
  audio_size : Nat
  status : String

/-- The pydantic field constraints of Podcast that concrete runs can
    violate: `papers` has min_length=3 and max_length=3, `audio_duration`
    is gt=0, `audio_size` is gt=0.  Construction raises ValidationError
    when any fails.  (The string pattern/max_length constraints never
    enter any claim.) -/
def podcastFieldsOk (papers : List Paper) (duration size : Nat) : Prop :=
  3 ≤ papers.length ∧ papers.length ≤ 3 ∧ 0 < duration ∧ 0 < size

instance (papers : List Paper) (duration size : Nat) :
    Decidable (podcastFieldsOk papers duration size) := by
  unfold podcastFieldsOk
  infer_instance

/-- The environment of one `PodcastPipeline.run`: the behaviour of each
    remote collaborator during this run. -/
structure PipelineEnv where
  collected : StageOutcome (List Paper)
  gen : Paper → CallOutcome
  tts_call : StageOutcome Unit
  audio_duration : Nat
  audio_size : Nat
  upload : StageOutcome String
  podcast_id : String
  title_prefix : String

/-- The loop of `PodcastPipeline._generate_summaries`: summarize each
    paper in order, populating `paper.summary`; any escaped exception
    aborts the stage. -/
def summarizeLoop (env : PipelineEnv) : List Paper → List Paper → Except Unit (List Paper)
  | [], acc => Except.ok acc
  | p :: rest, acc =>
    match generate_summary p "ko" (env.gen p) with
    | Except.error e => Except.error e
    | Except.ok s => summarizeLoop env rest (acc ++ [{ p with summary := some s }])

/-- The Podcast object built by `PodcastPipeline._create_podcast` when
    the pydantic validation succeeds. -/
def mkEpisode (env : PipelineEnv) (papers : List Paper) (audio_url : String) : Podcast :=
  ⟨env.podcast_id,
    env.title_prefix ++ " - " ++ env.podcast_id,
    "오늘의 Hugging Face 트렌딩 논문 Top " ++ toString papers.length,
    papers, audio_url, env.audio_duration, env.audio_size, "completed"⟩

/-- The value `PodcastPipeline.run` returns together with the Episode
    records it persists (the json.dump in `_create_podcast`, which runs
    only after Podcast construction succeeded). -/
structure RunResult where
  returned : Option Podcast
  persisted : List Podcast

/-- `PodcastPipeline.run`: Collect, abort on an empty result or a raise;
    Summarize (never raises, see generate_summary); TTS and Upload, abort
    on a raise; then construct the Podcast — pydantic validation failure
    raises, is caught by run's handler, and nothing is persisted;
    otherwise the metadata file is written and the podcast returned. -/
def pipeline_run (env : PipelineEnv) : RunResult :=
  match env.collected with
  | StageOutcome.raises => ⟨none, []⟩
  | StageOutcome.ok papers =>
    if papers.isEmpty then ⟨none, []⟩
    else
      match summarizeLoop env papers [] with
      | Except.error _ => ⟨none, []⟩
      | Except.ok withSummaries =>
        if withSummaries.isEmpty then ⟨none, []⟩
        else
          match env.tts_call with
          | StageOutcome.raises => ⟨none, []⟩
          | StageOutcome.ok _ =>
            match env.upload with
            | StageOutcome.raises => ⟨none, []⟩
            | StageOutcome.ok audio_url =>
              if podcastFieldsOk withSummaries env.audio_duration env.audio_size then
                ⟨some (mkEpisode env withSummaries audio_url),
                  [mkEpisode env withSummaries audio_url]⟩
              else ⟨none, []⟩

theorem generate_summary_isOk (paper : Paper) (language : String) (call : CallOutcome) :
    ∃ s, generate_summary paper language call = Except.ok s := by
  cases call with
  | raise => exact ⟨_, rfl⟩
  | ok resp =>
    cases h : generate_summary_try paper language resp with
    | error e =>
      refine ⟨create_fallback_summary paper language, ?_⟩
      simp [generate_summary, h]
    | ok s =>
      refine ⟨s, ?_⟩
      simp [generate_summary, h]

theorem summarizeLoop_isOk (env : PipelineEnv) :
    ∀ (ps acc : List Paper), ∃ rs, summarizeLoop env ps acc = Except.ok rs := by
  intro ps
  induction ps with
  | nil => intro acc; exact ⟨acc, rfl⟩
  | cons p rest ih =>
    intro acc
    obtain ⟨s, hs⟩ := generate_summary_isOk p "ko" (env.gen p)
    obtain ⟨rs, hrs⟩ := ih (acc ++ [{ p with summary := some s }])
    exact ⟨rs, by simp [summarizeLoop, hs, hrs]⟩

theorem summarizeLoop_length (env : PipelineEnv) :
    ∀ (ps acc rs : List Paper), summarizeLoop env ps acc = Except.ok rs →
      rs.length = acc.length + ps.length := by
  intro ps
  induction ps with
  | nil =>
    intro acc rs h
    simp only [summarizeLoop] at h
    cases h
    simp
  | cons p rest ih =>
    intro acc rs h
    simp only [summarizeLoop] at h
    cases hg : generate_summary p "ko" (env.gen p) with
    | error e => rw [hg] at h; simp at h
    | ok s =>
      rw [hg] at h
      have := ih (acc ++ [{ p with summary := some s }]) rs h
      simp at this
      simp
      omega

/-- Claim C4: a run whose Collect stage yields fewer than 3 documents
    returns None and persists no Episode: an empty list aborts at the
    guard, and 1 or 2 documents fail the Podcast papers min_length=3
    pydantic validation before the metadata file would be written. -/
theorem claim_c4 (env : PipelineEnv) (papers : List Paper)
    (hc : env.collected = StageOutcome.ok papers)
    (hlen : papers.length < 3) :
    (pipeline_run env).returned = none ∧ (pipeline_run env).persisted = [] := by
  obtain ⟨rs, hrs⟩ := summarizeLoop_isOk env papers []
  have hrsl := summarizeLoop_length env papers [] rs hrs
  have hnotok : ¬ podcastFieldsOk rs env.audio_duration env.audio_size := by
    simp only [podcastFieldsOk, List.length_nil] at hrsl ⊢
    omega
  have hrun : pipeline_run env = ⟨none, []⟩ := by
    unfold pipeline_run
    rw [hc]
    dsimp only
    split
    · rfl
    · rw [hrs]
      dsimp only
      split
      · rfl
      · cases env.tts_call with
        | raises => rfl
        | ok u =>
          cases env.upload with
          | raises => rfl
          | ok url => simp [hnotok]
  rw [hrun]
  exact ⟨rfl, rfl⟩

theorem pipeline_run_completes (env : PipelineEnv) (ps : List Paper) (url : String)
    (hc : env.collected = StageOutcome.ok ps) (h3 : ps.length = 3)
    (ht : env.tts_call = StageOutcome.ok ()) (hu : env.upload = StageOutcome.ok url)
    (hd : 0 < env.audio_duration) (hz : 0 < env.audio_size) :
    ∃ pc, (pipeline_run env).returned = some pc := by
  obtain ⟨rs, hrs⟩ := summarizeLoop_isOk env ps []
  have hrsl := summarizeLoop_length env ps [] rs hrs
  simp only [List.length_nil, Nat.zero_add] at hrsl
  have hpe : ps.isEmpty = false := by
    cases ps with
    | nil => simp at h3
    | cons a l => rfl
  have hre : rs.isEmpty = false := by
    cases rs with
    | nil => simp at hrsl; omega
    | cons a l => rfl
  have hok : podcastFieldsOk rs env.audio_duration env.audio_size := by
    refine ⟨by omega, by omega, hd, hz⟩
  refine ⟨mkEpisode env rs url, ?_⟩
  unfold pipeline_run
  rw [hc]
  simp only [hpe, hrs, hre, ht, hu, Bool.false_eq_true, if_false]
  rw [if_pos hok]

/-- Claim C6: when the summarization call raises, or returns a normally
    finished response whose text fails local validation, generate_summary
    returns the deterministic fallback summary built from the paper's own
    fields — one that contains the paper's title — and a run whose other
    stages succeed still completes, whatever the generative calls do. -/
theorem claim_c6 (paper : Paper) (resp : GenResponse) (cand : Candidate) (s : String)
    (hcand : resp.candidates = [cand])
    (hfr : cand.has_finish_reason = true)
    (hone : cand.finish_reason = 1)
    (htext : resp.text = Except.ok s)
    (hval : validate_summary s = false) :
    generate_summary paper "ko" CallOutcome.raise =
      Except.ok (create_fallback_summary paper "ko") ∧
    generate_summary paper "ko" (CallOutcome.ok resp) =
      Except.ok (create_fallback_summary paper "ko") ∧
    occursIn paper.title.data (create_fallback_summary paper "ko").data ∧
    (∀ (env : PipelineEnv) (ps : List Paper) (url : String),
      env.collected = StageOutcome.ok ps → ps.length = 3 →
      env.tts_call = StageOutcome.ok () → env.upload = StageOutcome.ok url →
      0 < env.audio_duration → 0 < env.audio_size →
      ∃ pc, (pipeline_run env).returned = some pc) := by
  refine ⟨rfl, ?_, ?_, ?_⟩
  · simp [generate_summary, generate_summary_try, hcand, hfr, hone, htext, hval]
  · refine ⟨"논문 제목: '".data, (fallbackTailKo paper).data, ?_⟩
    simp [create_fallback_summary, strDataAppend]
  · intro env ps url h1 h2 h3 h4 h5 h6
    exact pipeline_run_completes env ps url h1 h2 h3 h4 h5 h6

/-- Claim C10: generate_summary always returns a string — no exception
    reaches its caller for any behaviour of the remote call — so a retry
    wrapper around it observes success on the first attempt: one single
    invocation returning that string. -/
theorem claim_c10 (paper : Paper) (language : String) (call : CallOutcome) :
    ∃ s, generate_summary paper language call = Except.ok s ∧
      ∀ n, 1 ≤ n →
        retry_with_logging n (fun _ => toCallResult (generate_summary paper language call)) =
          (RunOutcome.ok s, 1) := by
  obtain ⟨s, hs⟩ := generate_summary_isOk paper language call
  refine ⟨s, hs, ?_⟩
  intro n hn
  match n, hn with
  | m + 1, _ =>
    unfold retry_with_logging
    simp [retryAux, hs, toCallResult]

/-- A sample paper used by the concrete witnesses. -/
def paper0 : Paper := ⟨"2401.00001", "Example Paper", ["Kim", "Lee"], "An abstract.", none⟩

/-- A second sample paper. -/
def paperA : Paper := ⟨"2401.00002", "Second Paper", ["Park"], "Another abstract.", none⟩

/-- A third sample paper. -/
def paperB : Paper := ⟨"2401.00003", "Third Paper", ["Choi"], "A third abstract.", none⟩

/-- A candidate with a normal finish reason and no parts. -/
def cand0 : Candidate := ⟨true, 1, false, ""⟩

/-- A response whose text "short" fails the 500-character minimum. -/
def resp0 : GenResponse := ⟨[cand0], Except.ok "short"⟩

/-- A run environment whose Collect yields a single document. -/
def env0 : PipelineEnv :=
  ⟨StageOutcome.ok [paper0], fun _ => CallOutcome.raise, StageOutcome.ok (),
    10, 1000, StageOutcome.ok "https://storage/episode.mp3", "2025-01-01", "Daily AI Papers"⟩

/-- A run environment with 3 documents where every summarization call
    raises and the remaining stages succeed. -/
def env1 : PipelineEnv :=
  ⟨StageOutcome.ok [paper0, paperA, paperB], fun _ => CallOutcome.raise, StageOutcome.ok (),
    10, 1000, StageOutcome.ok "https://storage/episode.mp3", "2025-01-02", "Daily AI Papers"⟩

/-- Claim C4 witness: the run over env0 (one collected document) returns
    None and persists nothing. -/
theorem claim_c4_witness :
    (pipeline_run env0).returned = none ∧ (pipeline_run env0).persisted = [] :=
  claim_c4 env0 [paper0] rfl (by decide)

/-- Claim C6 witness at a concrete paper, a concrete under-length response
    and the concrete all-raising 3-document environment env1. -/
theorem claim_c6_witness :
    generate_summary paper0 "ko" CallOutcome.raise =
      Except.ok (create_fallback_summary paper0 "ko") ∧
    generate_summary paper0 "ko" (CallOutcome.ok resp0) =
      Except.ok (create_fallback_summary paper0 "ko") ∧
    occursIn paper0.title.data (create_fallback_summary paper0 "ko").data ∧
    ∃ pc, (pipeline_run env1).returned = some pc := by
  obtain ⟨h1, h2, h3, h4⟩ := claim_c6 paper0 resp0 cand0 "short" rfl rfl rfl rfl (by decide)
  exact ⟨h1, h2, h3,
    h4 env1 [paper0, paperA, paperB] "https://storage/episode.mp3" rfl rfl rfl rfl
      (by decide) (by decide)⟩

theorem utf8Len_append (a b : List Char) : utf8Len (a ++ b) = utf8Len a + utf8Len b := by
  simp [utf8Len]

theorem utf8Len_cons (c : Char) (t : List Char) :
    utf8Len (c :: t) = c.utf8Size + utf8Len t := by
  simp [utf8Len]

theorem utf8Len_le_of_sublist {l₁ l₂ : List Char} (h : l₁.Sublist l₂) :
    utf8Len l₁ ≤ utf8Len l₂ := by
  induction h with
  | slnil => exact le_refl _
  | cons a h ih => rw [utf8Len_cons]; omega
  | cons₂ a h ih => rw [utf8Len_cons, utf8Len_cons]; omega

theorem pyStrip_sublist (s : List Char) : (pyStrip s).Sublist s := by
  unfold pyStrip dropTrail
  have h1 : (s.dropWhile pyIsSpace).Sublist s := List.dropWhile_sublist _
  have h2 : ((s.dropWhile pyIsSpace).reverse.dropWhile pyIsSpace).Sublist
      (s.dropWhile pyIsSpace).reverse := List.dropWhile_sublist _
  have h3 := h2.reverse
  rw [List.reverse_reverse] at h3
  exact h3.trans h1

theorem utf8Len_pyStrip_le (s : List Char) : utf8Len (pyStrip s) ≤ utf8Len s :=
  utf8Len_le_of_sublist (pyStrip_sublist s)

theorem mem_pyStrip {c : Char} {s : List Char} (h : c ∈ pyStrip s) : c ∈ s :=
  (pyStrip_sublist s).subset h

theorem mem_pyReplaceChar {c : Char} (old : Char) (new : List Char) :
    ∀ (s : List Char), c ∈ pyReplaceChar old new s → c ∈ new ∨ c ∈ s := by
  intro s
  induction s with
  | nil => intro h; simp [pyReplaceChar] at h
  | cons a t ih =>
    intro h
    simp only [pyReplaceChar, List.mem_append] at h
    rcases h with h | h
    · by_cases ha : (a == old) = true
      · rw [if_pos ha] at h; exact Or.inl h
      · rw [if_neg ha] at h
        simp at h
        rw [h]
        exact Or.inr (List.mem_cons_self a t)
    · rcases ih h with h | h
      · exact Or.inl h
      · exact Or.inr (List.mem_cons_of_mem a h)

theorem mem_splitDotSpace :
    ∀ (s : List Char), ∀ p ∈ splitDotSpace s, ∀ c ∈ p, c ∈ s := by
  intro s
  induction s using splitDotSpace.induct with
  | case1 =>
    intro p hp c hc
    simp [splitDotSpace] at hp
    subst hp
    simp at hc
  | case2 c0 =>
    intro p hp c hc
    simp [splitDotSpace] at hp
    subst hp
    simpa using hc
  | case3 c1 c2 rest h ih =>
    intro p hp c hc
    simp only [splitDotSpace, if_pos h] at hp
    rcases List.mem_cons.mp hp with hp | hp
    · subst hp; simp at hc
    · exact List.mem_cons_of_mem c1 (List.mem_cons_of_mem c2 (ih p hp c hc))
  | case4 c1 c2 rest h hm ih =>
    intro p hp c hc
    simp only [splitDotSpace, if_neg h] at hp
    rw [hm] at hp
    simp at hp
    subst hp
    simp at hc
    rw [hc]
    exact List.mem_cons_self c1 (c2 :: rest)
  | case5 c1 c2 rest h q qs hm ih =>
    intro p hp c hc
    simp only [splitDotSpace, if_neg h] at hp
    rw [hm] at hp
    rcases List.mem_cons.mp hp with hp | hp
    · subst hp
      rcases List.mem_cons.mp hc with hc | hc
      · rw [hc]; exact List.mem_cons_self c1 (c2 :: rest)
      · exact List.mem_cons_of_mem c1 (ih q (hm ▸ List.mem_cons_self q qs) c hc)
    · exact List.mem_cons_of_mem c1 (ih p (hm ▸ List.mem_cons_of_mem q hp) c hc)

theorem splitByCharsAux_bound (maxB : Nat) :
    ∀ (s current : List Char) (chunks : List (List Char)),
      (∀ c ∈ s, c.utf8Size ≤ maxB) →
      utf8Len current ≤ maxB →
      (∀ ch ∈ chunks, utf8Len ch ≤ maxB) →
      ∀ ch ∈ splitByCharsAux maxB s current chunks, utf8Len ch ≤ maxB := by
  intro s
  induction s with
  | nil =>
    intro current chunks hs hcur hacc ch hch
    simp only [splitByCharsAux] at hch
    by_cases he : current.isEmpty
    · rw [if_pos he] at hch
      exact hacc ch hch
    · rw [if_neg he] at hch
      rcases List.mem_append.mp hch with h | h
      · exact hacc ch h
      · simp at h; subst h; exact hcur
  | cons c rest ih =>
    intro current chunks hs hcur hacc ch hch
    have hrest : ∀ x ∈ rest, Char.utf8Size x ≤ maxB :=
      fun x hx => hs x (List.mem_cons_of_mem c hx)
    have hone : utf8Len [c] ≤ maxB := by
      simpa [utf8Len] using hs c (List.mem_cons_self c rest)
    simp only [splitByCharsAux] at hch
    by_cases hfit : utf8Len (current ++ [c]) ≤ maxB
    · rw [if_pos hfit] at hch
      exact ih _ _ hrest hfit hacc ch hch
    · rw [if_neg hfit] at hch
      by_cases he : current.isEmpty
      · rw [if_pos he] at hch
        exact ih _ _ hrest hone hacc ch hch
      · rw [if_neg he] at hch
        refine ih _ _ hrest hone (fun x hx => ?_) ch hch
        rcases List.mem_append.mp hx with h | h
        · exact hacc x h
        · simp at h; subst h; exact hcur

theorem getLastD_prop {α : Type} {P : α → Prop} :
    ∀ (l : List α) (d : α), (∀ x ∈ l, P x) → P d → P (l.getLastD d) := by
  intro l
  induction l with
  | nil => intro d _ hd; simpa using hd
  | cons a t ih =>
    intro d h hd
    rw [List.getLastD_cons]
    exact ih a (fun x hx => h x (List.mem_cons_of_mem a hx)) (h a (List.mem_cons_self a t))

theorem splitSentencesAux_bound (maxB : Nat) :
    ∀ (ss : List (List Char)) (current : List Char) (chunks : List (List Char)),
      1 ≤ maxB →
      (∀ s ∈ ss, ∀ c ∈ s, c.utf8Size ≤ maxB) →
      utf8Len current ≤ maxB →
      (∀ ch ∈ chunks, utf8Len ch ≤ maxB) →
      ∀ ch ∈ splitSentencesAux maxB ss current chunks, utf8Len ch ≤ maxB := by
  intro ss
  induction ss with
  | nil =>
    intro current chunks h1 hs hcur hacc ch hch
    simp only [splitSentencesAux] at hch
    by_cases he : (pyStrip current).isEmpty
    · rw [if_pos he] at hch
      exact hacc ch hch
    · rw [if_neg he] at hch
      rcases List.mem_append.mp hch with h | h
      · exact hacc ch h
      · simp at h; subst h; exact le_trans (utf8Len_pyStrip_le current) hcur
  | cons s rest ih =>
    intro current chunks h1 hs hcur hacc ch hch
    have htail : ∀ t ∈ rest, ∀ c ∈ t, Char.utf8Size c ≤ maxB :=
      fun t ht c hc => hs t (List.mem_cons_of_mem s ht) c hc
    have hsent : ∀ c ∈ pyStrip s ++ dotSpace, c.utf8Size ≤ maxB := by
      intro c hc
      rcases List.mem_append.mp hc with h | h
      · exact hs s (List.mem_cons_self s rest) c (mem_pyStrip h)
      · have hd : c = '.' ∨ c = ' ' := by simpa [dotSpace] using h
        rcases hd with h | h <;> subst h
        · rw [show ('.' : Char).utf8Size = 1 from by decide]; omega
        · rw [show (' ' : Char).utf8Size = 1 from by decide]; omega
    simp only [splitSentencesAux] at hch
    by_cases hempty : (pyStrip s).isEmpty
    · rw [if_pos hempty] at hch
      exact ih current chunks h1 htail hcur hacc ch hch
    · rw [if_neg hempty] at hch
      by_cases hfit : utf8Len (current ++ (pyStrip s ++ dotSpace)) ≤ maxB
      · rw [if_pos hfit] at hch
        exact ih _ _ h1 htail hfit hacc ch hch
      · rw [if_neg hfit] at hch
        have hchunks1 :
            ∀ x ∈ (if current.isEmpty then chunks else chunks ++ [pyStrip current]),
              utf8Len x ≤ maxB := by
          by_cases he : current.isEmpty
          · rw [if_pos he]; exact hacc
          · rw [if_neg he]
            intro x hx
            rcases List.mem_append.mp hx with h | h
            · exact hacc x h
            · simp at h; subst h; exact le_trans (utf8Len_pyStrip_le current) hcur
        by_cases hbig : maxB < utf8Len (pyStrip s ++ dotSpace)
        · rw [if_pos hbig] at hch
          have hcc : ∀ x ∈ split_by_characters (pyStrip s ++ dotSpace) maxB,
              utf8Len x ≤ maxB := by
            intro x hx
            exact splitByCharsAux_bound maxB _ [] [] hsent (by simp [utf8Len]) (by simp) x hx
          refine ih _ _ h1 htail ?_ ?_ ch hch
          · exact getLastD_prop _ [] hcc (by simp [utf8Len])
          · intro x hx
            rcases List.mem_append.mp hx with h | h
            · exact hchunks1 x h
            · exact hcc x (List.dropLast_subset _ h)
        · rw [if_neg hbig] at hch
          exact ih _ _ h1 htail (by omega) hchunks1 ch hch

/-- Python `sep.join(pieces)`. -/
def joinSep {α : Type} (sep : List α) : List (List α) → List α
  | [] => []
  | [x] => x
  | x :: y :: rest => x ++ sep ++ joinSep sep (y :: rest)

/-- The stripped non-empty sentences of a sentence list, in order — what
    the sentence loop actually processes. -/
def cleanedOf (ss : List (List Char)) : List (List Char) :=
  (ss.map pyStrip).filter (fun s => !s.isEmpty)

/-- The stripped non-empty `". "`-separated sentences of the text (after
    the `'。'` replacement), in order. -/
def cleanSentences (text : List Char) : List (List Char) :=
  cleanedOf (splitDotSpace (pyReplaceChar '。' dotSpace text))

/-- A finished chunk, as emitted for a buffered group of sentences:
    the sentences joined by `". "`, ending in a bare period (the strip of
    the buffer removes the trailing space). -/
def render1 (g : List (List Char)) : List Char :=
  joinSep dotSpace g ++ ['.']

/-- The in-progress buffer for a group of sentences: the sentences joined
    by `". "` with the trailing `". "` still present. -/
def render2 (g : List (List Char)) : List Char :=
  joinSep dotSpace g ++ dotSpace

/-- The greedy grouping of the clean sentences that the sentence loop
    performs: extend the current group while the buffered form fits the
    budget, otherwise close it and start a new group. -/
def greedy (maxB : Nat) : List (List Char) → List (List Char) → List (List (List Char))
  | [], g => [g]
  | s :: rest, g =>
    if utf8Len (render2 (g ++ [s])) ≤ maxB then greedy maxB rest (g ++ [s])
    else g :: greedy maxB rest [s]

/-- The groups for a whole clean sentence list (empty list: no group). -/
def greedyGroups (maxB : Nat) : List (List Char) → List (List (List Char))
  | [] => []
  | s :: rest => greedy maxB rest [s]

/-- The first piece heads the join. -/
theorem joinSep_first {α : Type} (sep x : List α) (xs : List (List α)) :
    ∃ t, joinSep sep (x :: xs) = x ++ t := by
  cases xs with
  | nil => exact ⟨[], by simp [joinSep]⟩
  | cons y t => exact ⟨sep ++ joinSep sep (y :: t), by simp [joinSep]⟩

theorem joinSep_ne_nil {α : Type} (sep x : List α) (xs : List (List α)) (hx : x ≠ []) :
    joinSep sep (x :: xs) ≠ [] := by
  obtain ⟨t, ht⟩ := joinSep_first sep x xs
  rw [ht]
  cases x with
  | nil => exact absurd rfl hx
  | cons c r => simp

theorem joinSep_append {α : Type} (sep : List α) :
    ∀ (g h : List (List α)), g ≠ [] → h ≠ [] →
      joinSep sep (g ++ h) = joinSep sep g ++ sep ++ joinSep sep h := by
  intro g
  induction g with
  | nil => intro h hg _; exact absurd rfl hg
  | cons x t ih =>
    intro h _ hh
    cases t with
    | nil =>
      cases h with
      | nil => exact absurd rfl hh
      | cons q qs => simp [joinSep]
    | cons y t2 =>
      have := ih h (by simp) hh
      calc joinSep sep ((x :: y :: t2) ++ h)
          = x ++ sep ++ joinSep sep ((y :: t2) ++ h) := by simp [joinSep]
        _ = x ++ sep ++ (joinSep sep (y :: t2) ++ sep ++ joinSep sep h) := by rw [this]
        _ = joinSep sep (x :: y :: t2) ++ sep ++ joinSep sep h := by simp [joinSep]

theorem joinSep_append_single {α : Type} (sep : List α) (g : List (List α)) (s : List α)
    (hg : g ≠ []) :
    joinSep sep (g ++ [s]) = joinSep sep g ++ sep ++ s := by
  rw [joinSep_append sep g [s] hg (by simp)]
  rfl

theorem render2_append (g : List (List Char)) (s : List Char) (hg : g ≠ []) :
    render2 (g ++ [s]) = render2 g ++ (s ++ dotSpace) := by
  unfold render2
  rw [joinSep_append_single dotSpace g s hg]
  simp [List.append_assoc]

theorem render2_single (s : List Char) : render2 [s] = s ++ dotSpace := rfl

/-- The string starts with a non-whitespace character. -/
def HeadClean (s : List Char) : Prop :=
  ∃ c t, s = c :: t ∧ pyIsSpace c = false

theorem head_dropWhile_false {p : Char → Bool} :
    ∀ (s : List Char) {c : Char} {t : List Char},
      s.dropWhile p = c :: t → p c = false := by
  intro s
  induction s with
  | nil => intro c t h; simp [List.dropWhile] at h
  | cons a u ih =>
    intro c t h
    rw [List.dropWhile_cons] at h
    by_cases ha : p a = true
    · rw [if_pos ha] at h
      exact ih h
    · rw [if_neg ha] at h
      cases h
      simpa using ha

theorem dropTrail_prefix (s : List Char) :
    dropTrail s ++ (s.reverse.takeWhile pyIsSpace).reverse = s := by
  unfold dropTrail
  rw [← List.reverse_append, List.takeWhile_append_dropWhile, List.reverse_reverse]

theorem headClean_pyStrip (s : List Char) :
    pyStrip s = [] ∨ HeadClean (pyStrip s) := by
  unfold pyStrip
  cases hd : s.dropWhile pyIsSpace with
  | nil =>
    left
    simp [dropTrail]
  | cons c t =>
    have hc : pyIsSpace c = false := head_dropWhile_false s hd
    have hpre := dropTrail_prefix (c :: t)
    cases hdt : dropTrail (c :: t) with
    | nil => left; rfl
    | cons c2 t2 =>
      right
      refine ⟨c2, t2, rfl, ?_⟩
      rw [hdt] at hpre
      have : c2 = c := by
        have := congrArg (fun l => l.headD ' ') hpre
        simpa using this
      rw [this]
      exact hc

theorem pyIsSpace_space : pyIsSpace ' ' = true := by decide

theorem pyIsSpace_dot : pyIsSpace '.' = false := by decide

theorem pyStrip_append_dotSpace (u : List Char) (hu : HeadClean u) :
    pyStrip (u ++ dotSpace) = u ++ ['.'] := by
  obtain ⟨c, t, rfl, hc⟩ := hu
  unfold pyStrip
  have h1 : ((c :: t) ++ dotSpace).dropWhile pyIsSpace = (c :: t) ++ dotSpace := by
    rw [List.cons_append, List.dropWhile_cons, if_neg (by simp [hc])]
  rw [h1]
  unfold dropTrail
  have h2 : ((c :: t) ++ dotSpace).reverse = ' ' :: '.' :: (c :: t).reverse := by
    simp [dotSpace]
  rw [h2, List.dropWhile_cons, if_pos (by simp [pyIsSpace_space]),
    List.dropWhile_cons, if_neg (by simp [pyIsSpace_dot])]
  simp

theorem pyStrip_render2 {x : List Char} (xs : List (List Char)) (hx : HeadClean x) :
    pyStrip (render2 (x :: xs)) = render1 (x :: xs) := by
  have hhc : HeadClean (joinSep dotSpace (x :: xs)) := by
    obtain ⟨t, ht⟩ := joinSep_first dotSpace x xs
    obtain ⟨c, r, hx1, hc⟩ := hx
    exact ⟨c, r ++ t, by rw [ht, hx1]; simp, hc⟩
  unfold render2 render1
  exact pyStrip_append_dotSpace _ hhc

theorem greedy_ne_nil (maxB : Nat) :
    ∀ (cs g : List (List Char)), greedy maxB cs g ≠ [] := by
  intro cs
  induction cs with
  | nil => intro g; simp [greedy]
  | cons s rest ih =>
    intro g
    unfold greedy
    by_cases h : utf8Len (render2 (g ++ [s])) ≤ maxB
    · rw [if_pos h]; exact ih (g ++ [s])
    · rw [if_neg h]; simp

theorem greedy_groups_ne_nil (maxB : Nat) :
    ∀ (cs g : List (List Char)), g ≠ [] →
      ∀ gr ∈ greedy maxB cs g, gr ≠ [] := by
  intro cs
  induction cs with
  | nil =>
    intro g hg gr hgr
    simp [greedy] at hgr
    rw [hgr]
    exact hg
  | cons s rest ih =>
    intro g hg gr hgr
    unfold greedy at hgr
    by_cases h : utf8Len (render2 (g ++ [s])) ≤ maxB
    · rw [if_pos h] at hgr
      exact ih (g ++ [s]) (by simp) gr hgr
    · rw [if_neg h] at hgr
      rcases List.mem_cons.mp hgr with h2 | h2
      · rw [h2]; exact hg
      · exact ih [s] (by simp) gr h2

theorem greedy_join (maxB : Nat) :
    ∀ (cs g : List (List Char)),
      joinSep ([] : List (List Char)) (greedy maxB cs g) = g ++ cs := by
  intro cs
  induction cs with
  | nil => intro g; simp [greedy, joinSep]
  | cons s rest ih =>
    intro g
    unfold greedy
    by_cases h : utf8Len (render2 (g ++ [s])) ≤ maxB
    · rw [if_pos h, ih (g ++ [s])]
      simp
    · rw [if_neg h]
      have h1 := ih [s]
      cases hg2 : greedy maxB rest [s] with
      | nil => exact absurd hg2 (greedy_ne_nil maxB rest [s])
      | cons q qs =>
        rw [hg2] at h1
        calc joinSep ([] : List (List Char)) (g :: q :: qs)
            = g ++ joinSep ([] : List (List Char)) (q :: qs) := by simp [joinSep]
          _ = g ++ ([s] ++ rest) := by rw [h1]
          _ = g ++ s :: rest := by simp

theorem render1_append (g h : List (List Char)) (hg : g ≠ []) (hh : h ≠ []) :
    render1 (g ++ h) = render1 g ++ [' '] ++ render1 h := by
  unfold render1
  rw [joinSep_append dotSpace g h hg hh]
  show joinSep dotSpace g ++ (['.'] ++ [' ']) ++ joinSep dotSpace h ++ ['.'] = _
  simp

theorem joinSep_space_map_render1 :
    ∀ (groups : List (List (List Char))), (∀ gr ∈ groups, gr ≠ []) →
      ∀ q qs, groups = q :: qs →
      joinSep [' '] (groups.map render1) =
        render1 (joinSep ([] : List (List Char)) groups) := by
  intro groups
  induction groups with
  | nil => intro _ q qs h; cases h
  | cons g rest ih =>
    intro hne q qs heq
    cases rest with
    | nil => simp [joinSep]
    | cons g2 r2 =>
      have hg : g ≠ [] := hne g (List.mem_cons_self g _)
      have hg2 : g2 ≠ [] := hne g2 (List.mem_cons_of_mem g (List.mem_cons_self g2 r2))
      have hJ : joinSep ([] : List (List Char)) (g2 :: r2) ≠ [] := by
        obtain ⟨t, ht⟩ := joinSep_first ([] : List (List Char)) g2 r2
        rw [ht]
        cases g2 with
        | nil => exact absurd rfl hg2
        | cons a b => simp
      have hrec := ih (fun gr hgr => hne gr (List.mem_cons_of_mem g hgr)) g2 r2 rfl
      calc joinSep [' '] ((g :: g2 :: r2).map render1)
          = render1 g ++ [' '] ++ joinSep [' '] ((g2 :: r2).map render1) := by
            simp [joinSep]
        _ = render1 g ++ [' '] ++ render1 (joinSep ([] : List (List Char)) (g2 :: r2)) := by
            rw [hrec]
        _ = render1 (g ++ joinSep ([] : List (List Char)) (g2 :: r2)) := by
            rw [render1_append g _ hg hJ]
        _ = render1 (joinSep ([] : List (List Char)) (g :: g2 :: r2)) := by
            simp [joinSep]

theorem cleanedOf_cons_empty (s : List Char) (rest : List (List Char))
    (h : (pyStrip s).isEmpty = true) :
    cleanedOf (s :: rest) = cleanedOf rest := by
  simp [cleanedOf, List.filter_cons, h]

theorem cleanedOf_cons_clean (s : List Char) (rest : List (List Char))
    (h : (pyStrip s).isEmpty = false) :
    cleanedOf (s :: rest) = pyStrip s :: cleanedOf rest := by
  simp [cleanedOf, List.filter_cons, h]

theorem utf8Len_dotSpace : utf8Len dotSpace = 2 := by decide

/-- A clean sentence fit for grouping: starts with a non-space character
    and fits the budget with its `". "` re-appended. -/
def GoodSentence (maxB : Nat) (e : List Char) : Prop :=
  HeadClean e ∧ utf8Len e + 2 ≤ maxB

theorem greedy_cons (maxB : Nat) (s : List Char) (rest g : List (List Char)) :
    greedy maxB (s :: rest) g =
      if utf8Len (render2 (g ++ [s])) ≤ maxB then greedy maxB rest (g ++ [s])
      else g :: greedy maxB rest [s] := rfl

theorem splitSentencesAux_greedy (maxB : Nat) :
    ∀ (ss : List (List Char)) (g acc : List (List Char)),
      g ≠ [] →
      (∀ e ∈ g, GoodSentence maxB e) →
      (∀ e ∈ cleanedOf ss, GoodSentence maxB e) →
      splitSentencesAux maxB ss (render2 g) acc =
        acc ++ (greedy maxB (cleanedOf ss) g).map render1 := by
  intro ss
  induction ss with
  | nil =>
    intro g acc hg hgood _
    cases g with
    | nil => exact absurd rfl hg
    | cons x xs =>
      have hx : HeadClean x := (hgood x (List.mem_cons_self x xs)).1
      have hstrip := pyStrip_render2 xs hx
      have hne2 : ¬ ((pyStrip (render2 (x :: xs))).isEmpty = true) := by
        rw [hstrip]
        unfold render1
        simp
      simp only [splitSentencesAux]
      rw [if_neg hne2, hstrip]
      show acc ++ [render1 (x :: xs)] =
        acc ++ (greedy maxB (cleanedOf []) (x :: xs)).map render1
      simp [cleanedOf, greedy]
  | cons s rest ih =>
    intro g acc hg hgood hclean
    by_cases hemp : (pyStrip s).isEmpty = true
    · have hcc := cleanedOf_cons_empty s rest hemp
      have hclean2 : ∀ e ∈ cleanedOf rest, GoodSentence maxB e :=
        fun e he => hclean e (by rw [hcc]; exact he)
      simp only [splitSentencesAux]
      rw [if_pos hemp, ih g acc hg hgood hclean2, hcc]
    · have hcc := cleanedOf_cons_clean s rest (by simpa using hemp)
      have hegood : GoodSentence maxB (pyStrip s) := by
        apply hclean
        rw [hcc]
        exact List.mem_cons_self _ _
      have hclean2 : ∀ x ∈ cleanedOf rest, GoodSentence maxB x :=
        fun x hx => hclean x (by rw [hcc]; exact List.mem_cons_of_mem _ hx)
      have hlen : utf8Len (pyStrip s ++ dotSpace) = utf8Len (pyStrip s) + 2 := by
        rw [utf8Len_append, utf8Len_dotSpace]
      have hr2 : render2 g ++ (pyStrip s ++ dotSpace) = render2 (g ++ [pyStrip s]) :=
        (render2_append g (pyStrip s) hg).symm
      simp only [splitSentencesAux]
      rw [if_neg hemp]
      by_cases hfit : utf8Len (render2 g ++ (pyStrip s ++ dotSpace)) ≤ maxB
      · rw [if_pos hfit, hr2]
        have hfits2 : utf8Len (render2 (g ++ [pyStrip s])) ≤ maxB := by
          rw [← hr2]
          exact hfit
        have hgoods2 : ∀ e ∈ g ++ [pyStrip s], GoodSentence maxB e := by
          intro e he
          rcases List.mem_append.mp he with h | h
          · exact hgood e h
          · simp at h
            rw [h]
            exact hegood
        rw [ih (g ++ [pyStrip s]) acc (by simp) hgoods2 hclean2, hcc,
          greedy_cons, if_pos hfits2]
      · rw [if_neg hfit]
        have hsml : ¬ (maxB < utf8Len (pyStrip s ++ dotSpace)) := by
          rw [hlen]
          have := hegood.2
          omega
        rw [if_neg hsml]
        cases g with
        | nil => exact absurd rfl hg
        | cons x xs =>
          have hx : HeadClean x := (hgood x (List.mem_cons_self x xs)).1
          have hstrip := pyStrip_render2 xs hx
          have hgne : ¬ ((render2 (x :: xs)).isEmpty = true) := by
            unfold render2
            simp [dotSpace]
          rw [if_neg hgne, hstrip]
          rw [show pyStrip s ++ dotSpace = render2 [pyStrip s] from (render2_single _).symm]
          have hgoods1 : ∀ e ∈ [pyStrip s], GoodSentence maxB e := by
            intro e he
            simp at he
            rw [he]
            exact hegood
          rw [ih [pyStrip s] (acc ++ [render1 (x :: xs)]) (by simp) hgoods1 hclean2, hcc,
            greedy_cons, if_neg (fun hh => hfit (by rw [hr2]; exact hh))]
          simp

theorem splitSentencesAux_start (maxB : Nat) :
    ∀ (ss acc : List (List Char)),
      (∀ e ∈ cleanedOf ss, GoodSentence maxB e) →
      splitSentencesAux maxB ss [] acc =
        acc ++ (greedyGroups maxB (cleanedOf ss)).map render1 := by
  intro ss
  induction ss with
  | nil =>
    intro acc _
    simp [splitSentencesAux, cleanedOf, greedyGroups, pyStrip, dropTrail]
  | cons s rest ih =>
    intro acc hclean
    by_cases hemp : (pyStrip s).isEmpty = true
    · have hcc := cleanedOf_cons_empty s rest hemp
      have hclean2 : ∀ e ∈ cleanedOf rest, GoodSentence maxB e :=
        fun e he => hclean e (by rw [hcc]; exact he)
      simp only [splitSentencesAux]
      rw [if_pos hemp, ih acc hclean2, hcc]
    · have hcc := cleanedOf_cons_clean s rest (by simpa using hemp)
      have hegood : GoodSentence maxB (pyStrip s) := by
        apply hclean
        rw [hcc]
        exact List.mem_cons_self _ _
      have hclean2 : ∀ x ∈ cleanedOf rest, GoodSentence maxB x :=
        fun x hx => hclean x (by rw [hcc]; exact List.mem_cons_of_mem _ hx)
      have hfit : utf8Len (([] : List Char) ++ (pyStrip s ++ dotSpace)) ≤ maxB := by
        rw [List.nil_append, utf8Len_append, utf8Len_dotSpace]
        have := hegood.2
        omega
      have hgoods1 : ∀ e ∈ [pyStrip s], GoodSentence maxB e := by
        intro e he
        simp at he
        rw [he]
        exact hegood
      simp only [splitSentencesAux]
      rw [if_neg hemp, if_pos hfit]
      rw [show ([] : List Char) ++ (pyStrip s ++ dotSpace) = render2 [pyStrip s] from by
        rw [List.nil_append]; exact (render2_single _).symm]
      rw [splitSentencesAux_greedy maxB rest [pyStrip s] acc (by simp) hgoods1 hclean2, hcc]
      rfl

/-- Claim C2 counterexample: the segmenter does not reconstruct T's
    content: "Hello" (well within a budget of 100) becomes the single
    chunk "Hello." — a period is appended that no whitespace trimming
    removes. -/
theorem claim_c2_counterexample :
    split_text_by_bytes "Hello".data 100 = ["Hello.".data] ∧
    pyStrip (joinSep ([] : List Char) (split_text_by_bytes "Hello".data 100)) ≠
      "Hello".data := by
  decide

/-- Claim C2 (amended): when every clean sentence fits the budget with its
    separator re-appended, concatenating the chunks with a single space
    re-inserted at each boundary yields the normalised text: the non-empty
    whitespace-stripped `". "`-separated sentences of T (after replacing
    `'。'`), joined by `". "` and terminated by a period.  T itself is
    reconstructed exactly when T is already of that shape; in general the
    segmenter appends a terminating period and collapses sentence
    whitespace, so the claim as stated fails. -/
theorem claim_c2 (text : List Char) (maxBytes : Nat)
    (hne : cleanSentences text ≠ [])
    (hfit : ∀ s ∈ cleanSentences text, utf8Len s + 2 ≤ maxBytes) :
    joinSep [' '] (split_text_by_bytes text maxBytes) =
      joinSep dotSpace (cleanSentences text) ++ ['.'] := by
  have hgood : ∀ e ∈ cleanSentences text, GoodSentence maxBytes e := by
    intro e he
    refine ⟨?_, hfit e he⟩
    unfold cleanSentences cleanedOf at he
    rcases List.mem_filter.mp he with ⟨hmem, hbe⟩
    rcases List.mem_map.mp hmem with ⟨s0, hs0, hse⟩
    rcases headClean_pyStrip s0 with h | h
    · rw [hse] at h
      rw [h] at hbe
      simp at hbe
    · rw [hse] at h
      exact h
  unfold split_text_by_bytes cleanSentences
  rw [splitSentencesAux_start maxBytes _ [] hgood, List.nil_append]
  cases hcs : cleanedOf (splitDotSpace (pyReplaceChar '。' dotSpace text)) with
  | nil => exact absurd hcs hne
  | cons q qs =>
    obtain ⟨q2, qs2, hg2⟩ :
        ∃ a b, greedy maxBytes qs [q] = a :: b := by
      cases hgg : greedy maxBytes qs [q] with
      | nil => exact absurd hgg (greedy_ne_nil maxBytes qs [q])
      | cons a b => exact ⟨a, b, rfl⟩
    show joinSep [' '] ((greedy maxBytes qs [q]).map render1) =
      joinSep dotSpace (q :: qs) ++ ['.']
    rw [joinSep_space_map_render1 (greedy maxBytes qs [q])
      (greedy_groups_ne_nil maxBytes qs [q] (by simp)) q2 qs2 hg2]
    rw [greedy_join maxBytes qs [q]]
    rfl

/-- Claim C2 witness: "Ab. Cd." with budget 100 — one chunk "Ab. Cd..",
    equal to the normalised join of the sentences ["Ab", "Cd."]. -/
theorem claim_c2_witness :
    (cleanSentences "Ab. Cd.".data ≠ [] ∧
      ∀ s ∈ cleanSentences "Ab. Cd.".data, utf8Len s + 2 ≤ 100) ∧
    joinSep [' '] (split_text_by_bytes "Ab. Cd.".data 100) =
      joinSep dotSpace (cleanSentences "Ab. Cd.".data) ++ ['.'] :=
  ⟨⟨by decide, by decide⟩, claim_c2 "Ab. Cd.".data 100 (by decide) (by decide)⟩

/-- Claim C1 counterexample: with byte budget 1 the text "é" produces the
    chunk "é" of UTF-8 length 2 — the character splitter cannot divide a
    multi-byte codepoint, so a character wider than the budget is emitted
    as an over-budget chunk. -/
theorem claim_c1_counterexample :
    split_text_by_bytes "é".data 1 = ["é".data, ".".data] ∧
    ¬ utf8Len "é".data ≤ 1 := by
  decide

/-- Claim C1 (amended): every chunk produced by the segmenter (including
    the character-level fallback) has UTF-8 length at most the budget B,
    provided B > 0 and every character of the input encodes to at most B
    bytes (in particular for every B ≥ 4); a single character wider than B
    cannot be split and is emitted as an over-budget chunk. -/
theorem claim_c1 (text : List Char) (maxBytes : Nat)
    (hpos : 0 < maxBytes)
    (hchars : ∀ c ∈ text, c.utf8Size ≤ maxBytes) :
    ∀ chunk ∈ split_text_by_bytes text maxBytes, utf8Len chunk ≤ maxBytes := by
  intro chunk hch
  unfold split_text_by_bytes at hch
  refine splitSentencesAux_bound maxBytes _ [] [] (by omega) ?_ (by simp [utf8Len])
    (by simp) chunk hch
  intro s hsplit c hc
  have hmem := mem_splitDotSpace _ s hsplit c hc
  rcases mem_pyReplaceChar '。' dotSpace _ hmem with h | h
  · have hd : c = '.' ∨ c = ' ' := by simpa [dotSpace] using h
    rcases hd with h | h <;> subst h
    · rw [show ('.' : Char).utf8Size = 1 from by decide]; omega
    · rw [show (' ' : Char).utf8Size = 1 from by decide]; omega
  · exact hchars c h

/-- Claim C1 witness on a Korean text (3-byte characters) with budget 4. -/
theorem claim_c1_witness :
    (0 < 4 ∧ ∀ c ∈ "안녕. Hi.".data, c.utf8Size ≤ 4) ∧
    ∀ chunk ∈ split_text_by_bytes "안녕. Hi.".data 4, utf8Len chunk ≤ 4 :=
  ⟨⟨by decide, by decide⟩, claim_c1 "안녕. Hi.".data 4 (by decide) (by decide)⟩

/-- Claim C10 witness at a concrete paper with a raising remote call and
    max_attempts = 3. -/
theorem claim_c10_witness :
    ∃ s, generate_summary paper0 "ko" CallOutcome.raise = Except.ok s ∧
      retry_with_logging 3
        (fun _ => toCallResult (generate_summary paper0 "ko" CallOutcome.raise)) =
        (RunOutcome.ok s, 1) := by
  obtain ⟨s, h1, h2⟩ := claim_c10 paper0 "ko" CallOutcome.raise
  exact ⟨s, h1, h2 3 (by omega)⟩

end Papercast

